import Mathlib

/-!
# Shallow embedding of `cupboard.py`

`cupboard.py` implements a persistent dictionary-like object (`class Cupboard`)
backed by a sqlite file, with values stored as json text.

Modelling decisions, each tied to the source:

* Values (`PyValue`) are the json-serializable Python shapes (`None`, `bool`,
  `int`, `float`, `str`, `list`, `dict` with `str` keys), plus one constructor
  `obj` standing for an arbitrary non-json-serializable Python object
  (`json.dumps` raises `TypeError` on it). Python floats are represented by
  their exact rational value; this covers the finite doubles, for which the
  json round trip is exact (IEEE special values are outside the model).
* The serialization codec (`json.dumps` / `json.loads`) is an external
  collaborator of the repository. Modelled from the spec: deterministic
  encode from supported shapes to text whose decode is its inverse
  (spec section 6), so an encoded text is represented by the supported value
  it decodes to, and `json_dumps` is the identity guarded by the recursive
  serializability check (`encodable`); `json.dumps` of an unsupported shape
  fails, modelled as `Option.none`.
* The sqlite file is a `Table`: a key-unique association list from the text
  key column to the stored (decoded) value column, in row order. The sqlite
  engine is an external collaborator; `INSERT OR REPLACE`, `DELETE`, point
  lookup, key enumeration and `COUNT(*)` are modelled as the corresponding
  association-list operations.
* Key arguments of `__getitem__` / `__setitem__` / `__delitem__` can be any
  Python object; `PyKey` covers the shapes exercised by the spec: text,
  `int`, `bool`, `None`, and an sqlite-unbindable object (such as a list),
  for which `conn.execute` raises a storage-layer error. (Python float keys
  are omitted: their sqlite text coercion is floating-point formatting.)
  For `DELETE FROM cupboard WHERE key = ?`, the sqlite comparison rules
  apply TEXT affinity to the bound parameter because the `key` column has
  TEXT affinity: an `int` in the 64-bit range is compared as its decimal
  text, a `bool` as the text of its integer form, `None` (NULL) matches no
  row, and an out-of-range or unbindable parameter raises before any row is
  touched (`keyToSql`).
* The handle state `Cupboard` carries the `writeback` flag, `_cache`
  (`Option`: `Option.none` models the Python attribute being `None` after
  close) and `_conn` (`Bool`: whether the attribute still references the
  connection). The durable world (`World`) carries the file contents and
  whether the underlying sqlite connection object was ever released by
  `conn.close()`.
* Each method is a pure function; returning `Except.error` models raising the
  corresponding Python exception at the point in the source where it is
  raised, before any of the mutations that follow that point (so an error
  result leaves handle and world unchanged). `Err.invalidKey` is the
  `TypeError` for a non-text key, `Err.unsupportedValue` the `TypeError`
  raised by `json.dumps`, `Err.keyNotFound` the `KeyError`, `Err.closed`
  `CupboardClosedError`, and `Err.storageError` a sqlite-layer exception.
* `with self.conn:` commits the enclosed statements on success and rolls all
  of them back when an exception escapes, so `sync` (which encodes and
  upserts every cache entry inside one such block) is modelled
  all-or-nothing.
* In writeback mode the cache and the caller share the very same mutable
  Python object; `mutateCached` models the caller mutating that object in
  place (the cached entry changes with it, in place, and in-place mutation
  keeps the top-level shape: a list stays a list, a dict stays a dict).
-/

/-- A json-shaped Python value, plus `obj` for a non-serializable object. -/
inductive PyValue where
  | null : PyValue
  | bool (b : Bool) : PyValue
  | int (n : Int) : PyValue
  | float (q : ℚ) : PyValue
  | str (s : String) : PyValue
  | list (xs : List PyValue) : PyValue
  | dict (kvs : List (String × PyValue)) : PyValue
  | obj : PyValue

/-- `isinstance(value, (dict, list))`: the mutable shapes (`_update_cache`). -/
def isMutable : PyValue → Bool
  | .list _ => true
  | .dict _ => true
  | _ => false

mutual

/-- Whether `json.dumps` succeeds on the value: recursively, every part is a
supported shape (no `obj` anywhere). -/
def encodable : PyValue → Bool
  | .null => true
  | .bool _ => true
  | .int _ => true
  | .float _ => true
  | .str _ => true
  | .list xs => encodableList xs
  | .dict kvs => encodableKVs kvs
  | .obj => false

/-- All elements of a list are serializable. -/
def encodableList : List PyValue → Bool
  | [] => true
  | x :: xs => encodable x && encodableList xs

/-- All values of a dict are serializable (keys are text by construction). -/
def encodableKVs : List (String × PyValue) → Bool
  | [] => true
  | (_, v) :: ps => encodable v && encodableKVs ps

end

/-- Modelled from the spec: the codec (spec section 6) is a deterministic
encode whose decode is its inverse on every supported shape, so the encoded
text is represented by the value it decodes to. `json.dumps(value)`: fails
(`TypeError`) exactly on unsupported shapes, and `json.loads` of its output
gives back `value`. -/
def json_dumps (value : PyValue) : Option PyValue :=
  if encodable value then some value else none

/-- A Python object passed as a key. `obj` is an sqlite-unbindable object. -/
inductive PyKey where
  | str (s : String) : PyKey
  | int (n : Int) : PyKey
  | bool (b : Bool) : PyKey
  | none : PyKey
  | obj : PyKey
deriving DecidableEq, Repr

/-- `isinstance(key, str)`. -/
def PyKey.isStr : PyKey → Bool
  | .str _ => true
  | _ => false

/-- How sqlite treats the bound parameter of `WHERE key = ?` against the
TEXT-affinity `key` column: `Option.none` means binding/execution raises
(unbindable object, or `int` outside sqlite's 64-bit range); `some Option.none`
means the parameter binds as NULL and matches no row; `some (some t)` means
the comparison matches exactly the text key `t` (TEXT affinity converts a
bound numeric to its text form before comparing). -/
def keyToSql : PyKey → Option (Option String)
  | .str s => some (some s)
  | .int n =>
      if n < -(2 ^ 63) ∨ 2 ^ 63 ≤ n then Option.none
      else some (some (toString n))
  | .bool b => some (some (if b then "1" else "0"))
  | .none => some Option.none
  | .obj => Option.none

/-- The rows of the sqlite file: key-unique association list in row order. -/
abbrev Table := List (String × PyValue)

/-- First value bound to the key, in row order (sqlite point lookup by the
primary key; also Python dict indexing, whose keys are unique). -/
def lookupKey (k : String) : List (String × PyValue) → Option PyValue
  | [] => Option.none
  | (a, v) :: ps => if a = k then some v else lookupKey k ps

/-- Remove every entry bound to the key (sqlite `DELETE ... WHERE key = ?`;
also Python `dict.pop(key, None)`, whose keys are unique). -/
def popKey (k : String) : List (String × PyValue) → List (String × PyValue)
  | [] => []
  | (a, v) :: ps => if a = k then popKey k ps else (a, v) :: popKey k ps

/-- `INSERT OR REPLACE INTO cupboard VALUES (?, ?)`: any existing row with
this key is removed and the new row inserted. -/
def upsert (t : Table) (k : String) (v : PyValue) : Table :=
  popKey k t ++ [(k, v)]

/-- `DELETE FROM cupboard WHERE key = ?` for a text key. -/
def sqlDelete (t : Table) (k : String) : Table :=
  popKey k t

/-- The durable world outside the handle: the backing file's rows, and
whether the underlying sqlite connection object has been released by
`conn.close()`. -/
structure World where
  file : Table
  released : Bool

/-- The in-memory cache: key to the shared decoded mutable value. -/
abbrev Cache := List (String × PyValue)

/-- The `Cupboard` handle state: `writeback` (fixed at open), `_cache`
(`Option.none` once `close` has run) and `_conn` (whether the attribute still
references the connection; `false` once `close` has run). -/
structure Cupboard where
  writeback : Bool
  _cache : Option Cache
  _conn : Bool

/-- The exceptions the methods can raise. -/
inductive Err where
  | invalidKey : Err
  | unsupportedValue : Err
  | keyNotFound : Err
  | closed : Err
  | storageError : Err
deriving DecidableEq, Repr

/-- `Cupboard(filename)` with the default `flag='c'`: fresh handle, empty
cache, live connection. (Any other flag raises `NotImplementedError` before
a handle exists, so only the supported mode is modelled.) -/
def openCupboard (writeback : Bool) : Cupboard :=
  { writeback := writeback, _cache := some [], _conn := true }

/-- A world over a fresh (or newly created) backing file. -/
def freshWorld : World :=
  { file := [], released := false }

/-- The `cache` property: raises `CupboardClosedError` when `_cache is None`. -/
def Cupboard.cacheOf (c : Cupboard) : Except Err Cache :=
  match c._cache with
  | Option.none => .error .closed
  | some cch => .ok cch

/-- The `conn` property: raises `CupboardClosedError` when `_conn is None`.
Returns nothing useful in the model beyond the closed check. -/
def Cupboard.connOf (c : Cupboard) : Except Err Unit :=
  if c._conn then .ok () else .error .closed

/-- `_update_cache(key, value)`: pop the key, then re-insert the value when
writeback mode is on and the value is mutable (a Python dict insertion of an
absent key appends it in iteration order). -/
def update_cache (c : Cupboard) (key : String) (value : PyValue) :
    Except Err Cupboard := do
  let cch ← c.cacheOf
  let cch := popKey key cch
  let cch := if c.writeback && isMutable value then cch ++ [(key, value)] else cch
  pure { c with _cache := some cch }

/-- `__getitem__(key)`: reject non-text keys; serve a cache hit directly;
otherwise point-lookup the file, raise `KeyError` on a miss, decode, update
the cache, and return the decoded value. -/
def getitem (c : Cupboard) (w : World) (key : PyKey) :
    Except Err (Cupboard × PyValue) := do
  match key with
  | .str s =>
      let cch ← c.cacheOf
      match lookupKey s cch with
      | some v => pure (c, v)
      | Option.none =>
          let _ ← c.connOf
          match lookupKey s w.file with
          | Option.none => throw .keyNotFound
          | some v =>
              let c' ← update_cache c s v
              pure (c', v)
  | _ => throw .invalidKey

/-- `__setitem__(key, value)`: reject non-text keys; `json.dumps` the value
(raises on unsupported shapes, before the connection is touched); durably
upsert; update the cache with the very object that was passed in. -/
def setitem (c : Cupboard) (w : World) (key : PyKey) (value : PyValue) :
    Except Err (Cupboard × World) := do
  match key with
  | .str s =>
      match json_dumps value with
      | Option.none => throw .unsupportedValue
      | some jv =>
          let _ ← c.connOf
          let w' := { w with file := upsert w.file s jv }
          let c' ← update_cache c s value
          pure (c', w')
  | _ => throw .invalidKey

/-- Result of the sqlite DELETE on the rows: a NULL parameter matches no
row; a text parameter deletes the rows with that text key. -/
def applyDelete (sqlKey : Option String) (t : Table) : Table :=
  match sqlKey with
  | Option.none => t
  | some u => sqlDelete t u

/-- `cache.pop(key, None)`: the cache keys being strings, the pop removes an
entry only when the key argument is that very string. -/
def cachePop (key : PyKey) (cch : Cache) : Cache :=
  match key with
  | .str s => popKey s cch
  | _ => cch

/-- `__delitem__(key)`: no key-type validation; execute the sqlite DELETE
(the bound parameter is compared against the TEXT-affinity key column per
`keyToSql`), then `cache.pop(key, None)`. -/
def delitem (c : Cupboard) (w : World) (key : PyKey) :
    Except Err (Cupboard × World) := do
  let _ ← c.connOf
  match keyToSql key with
  | Option.none => throw .storageError
  | some sqlKey =>
      let w' := { w with file := applyDelete sqlKey w.file }
      let cch ← c.cacheOf
      pure ({ c with _cache := some (cachePop key cch) }, w')

/-- `__iter__` / `keys()`: stream the key column in row order (the closed
check fires when the generator body first touches `self.conn`). -/
def keysOf (c : Cupboard) (w : World) : Except Err (List String) := do
  let _ ← c.connOf
  pure (w.file.map Prod.fst)

/-- `__len__` / `size()`: `SELECT COUNT(*)`. -/
def lenOf (c : Cupboard) (w : World) : Except Err Nat := do
  let _ ← c.connOf
  pure w.file.length

/-- `__contains__` (inherited from `collections.Mapping`): try
`__getitem__`, return `False` on `KeyError`, propagate everything else. -/
def containsOf (c : Cupboard) (w : World) (key : PyKey) : Except Err Bool :=
  match getitem c w key with
  | .ok _ => .ok true
  | .error .keyNotFound => .ok false
  | .error e => .error e

/-- `sync()`: return at once when the cache is empty (the `cache` property
raises when closed); otherwise encode and upsert every cache entry inside one
`with self.conn:` block — all committed together, or all rolled back when an
encode raises. Cache entries are not removed. -/
def sync (c : Cupboard) (w : World) : Except Err World := do
  let cch ← c.cacheOf
  if cch.isEmpty then pure w
  else do
    let _ ← c.connOf
    if encodableKVs cch then
      pure { w with file := cch.foldl (fun f p => upsert f p.1 p.2) w.file }
    else throw .unsupportedValue

/-- `close()`: `try: sync(); conn.close() except CupboardClosedError: pass
finally: _conn = None; _cache = None`. The `finally` always clears both
references; `conn.close()` releases the connection only when `sync` did not
raise; a non-`CupboardClosedError` exception from `sync` propagates (the
third component). -/
def close (c : Cupboard) (w : World) : Cupboard × World × Option Err :=
  let cleared : Cupboard := { c with _cache := Option.none, _conn := false }
  match sync c w with
  | .error .closed => (cleared, w, Option.none)
  | .error e => (cleared, w, some e)
  | .ok w' =>
      if c._conn then (cleared, { w' with released := true }, Option.none)
      else (cleared, w', Option.none)

/-- The caller mutating, in place, a mutable value previously returned by
`getitem` (or passed to `setitem`) in writeback mode: the cache holds the
same object, so the cached entry changes with it. Only a value the cache
holds can be mutated through this aliasing, and in-place mutation preserves
the top-level shape. -/
def mutateCached (c : Cupboard) (key : String) (v' : PyValue) : Option Cupboard :=
  match c._cache with
  | Option.none => Option.none
  | some cch =>
      match lookupKey key cch with
      | Option.none => Option.none
      | some v =>
          if isMutable v && isMutable v' &&
              (match v, v' with
               | .list _, .list _ => true
               | .dict _, .dict _ => true
               | _, _ => false) then
            let cch' := cch.map (fun p => if p.1 = key then (key, v') else p)
            some { c with _cache := some cch' }
          else Option.none


/-! ## Association-list lemmas -/

theorem lookupKey_popKey_self (k : String) (l : List (String × PyValue)) :
    lookupKey k (popKey k l) = Option.none := by
  induction l with
  | nil => rfl
  | cons p l ih =>
      obtain ⟨a, v⟩ := p
      by_cases h : a = k
      · rw [popKey, if_pos h]; exact ih
      · rw [popKey, if_neg h, lookupKey, if_neg h]; exact ih

theorem lookupKey_popKey_ne (k k' : String) (l : List (String × PyValue))
    (h : k' ≠ k) : lookupKey k' (popKey k l) = lookupKey k' l := by
  induction l with
  | nil => rfl
  | cons p l ih =>
      obtain ⟨a, v⟩ := p
      by_cases ha : a = k
      · rw [popKey, if_pos ha, lookupKey, if_neg (by rw [ha]; exact fun he => h he.symm)]
        exact ih
      · rw [popKey, if_neg ha, lookupKey, lookupKey]
        by_cases hb : a = k'
        · rw [if_pos hb, if_pos hb]
        · rw [if_neg hb, if_neg hb]; exact ih

theorem lookupKey_append (k : String) (l l2 : List (String × PyValue))
    (h : lookupKey k l = Option.none) :
    lookupKey k (l ++ l2) = lookupKey k l2 := by
  induction l with
  | nil => rfl
  | cons p l ih =>
      obtain ⟨a, v⟩ := p
      by_cases ha : a = k
      · rw [lookupKey, if_pos ha] at h; exact absurd h (by simp)
      · rw [lookupKey, if_neg ha] at h
        rw [List.cons_append, lookupKey, if_neg ha]; exact ih h

theorem lookupKey_upsert_self (t : Table) (k : String) (v : PyValue) :
    lookupKey k (upsert t k v) = some v := by
  rw [upsert, lookupKey_append k _ _ (lookupKey_popKey_self k t), lookupKey, if_pos rfl]

theorem lookupKey_append_left (k : String) (l l2 : List (String × PyValue))
    (x : PyValue) (h : lookupKey k l = some x) :
    lookupKey k (l ++ l2) = some x := by
  induction l with
  | nil => exact absurd h (by rw [lookupKey]; simp)
  | cons p l ih =>
      obtain ⟨a, v⟩ := p
      by_cases ha : a = k
      · rw [lookupKey, if_pos ha] at h
        rw [List.cons_append, lookupKey, if_pos ha]; exact h
      · rw [lookupKey, if_neg ha] at h
        rw [List.cons_append, lookupKey, if_neg ha]; exact ih h

theorem lookupKey_upsert_ne (t : Table) (k k' : String) (v : PyValue)
    (h : k' ≠ k) : lookupKey k' (upsert t k v) = lookupKey k' t := by
  rw [upsert]
  cases hl : lookupKey k' (popKey k t) with
  | none =>
      rw [lookupKey_append k' _ _ hl, ← lookupKey_popKey_ne k k' t h, hl]
      rw [show lookupKey k' [(k, v)] = if k = k' then some v else lookupKey k' [] from rfl]
      rw [if_neg (fun he => h he.symm), lookupKey]
  | some x =>
      rw [lookupKey_append_left k' _ _ x hl, ← lookupKey_popKey_ne k k' t h, hl]

theorem popKey_eq_self_of_lookup_none (k : String)
    (l : List (String × PyValue)) (h : lookupKey k l = Option.none) :
    popKey k l = l := by
  induction l with
  | nil => rfl
  | cons p l ih =>
      obtain ⟨a, v⟩ := p
      by_cases ha : a = k
      · rw [lookupKey, if_pos ha] at h; exact absurd h (by simp)
      · rw [lookupKey, if_neg ha] at h
        rw [popKey, if_neg ha, ih h]

/-! ## `Except` reduction helpers -/

theorem exbind_ok {α β : Type} (x : α) (f : α → Except Err β) :
    (Except.ok x >>= f : Except Err β) = f x := rfl

theorem exbind_err {α β : Type} (e : Err) (f : α → Except Err β) :
    (Except.error e >>= f : Except Err β) = Except.error e := rfl

theorem exmap_ok {α β : Type} (f : α → β) (x : α) :
    (f <$> (Except.ok x : Except Err α)) = Except.ok (f x) := rfl

theorem exmap_err {α β : Type} (f : α → β) (e : Err) :
    (f <$> (Except.error e : Except Err α)) = (Except.error e : Except Err β) := rfl

theorem expure {α : Type} (x : α) : (pure x : Except Err α) = Except.ok x := rfl

theorem exthrow {α : Type} (e : Err) :
    (throw e : Except Err α) = Except.error e := rfl

/-! ## C1 -/

/-- C1: for every text key k and every supported (json-serializable) value v,
on an open store, `set(k, v)` followed by `get(k)` returns a value
structurally equal to v, in both writeback and non-writeback mode. -/
theorem c1_set_get_roundtrip (wb : Bool) (cch : Cache) (w : World)
    (k : String) (v : PyValue) (henc : encodable v = true) :
    ∃ c' w', setitem ⟨wb, some cch, true⟩ w (.str k) v = .ok (c', w') ∧
      ∃ c'', getitem c' w' (.str k) = .ok (c'', v) := by
  refine ⟨⟨wb, some (if wb && isMutable v then upsert cch k v else popKey k cch), true⟩,
    { w with file := upsert w.file k v }, ?_, ?_⟩
  · simp [setitem, json_dumps, henc, update_cache, Cupboard.cacheOf, Cupboard.connOf,
      exbind_ok, expure, upsert]
  · by_cases hm : (wb && isMutable v) = true
    · refine ⟨⟨wb, some (if wb && isMutable v then upsert cch k v else popKey k cch), true⟩, ?_⟩
      simp [getitem, Cupboard.cacheOf, hm, exbind_ok, expure, lookupKey_upsert_self]
    · refine ⟨⟨wb, some (popKey k (popKey k cch)), true⟩, ?_⟩
      simp only [Bool.not_eq_true] at hm
      simp [getitem, Cupboard.cacheOf, Cupboard.connOf, hm, exbind_ok, exmap_ok, expure,
        lookupKey_popKey_self, lookupKey_upsert_self, update_cache]

/-- Witness for C1 at a concrete input: an open writeback store with one
cached entry, setting key "a" to the list [1] and reading it back. -/
theorem c1_set_get_roundtrip_witness :
    ∃ c' w', setitem ⟨true, some [("b", PyValue.dict [])], true⟩
        ⟨[("b", PyValue.dict [])], false⟩ (.str "a") (.list [.int 1]) = .ok (c', w') ∧
      ∃ c'', getitem c' w' (.str "a") = .ok (c'', .list [.int 1]) :=
  c1_set_get_roundtrip true [("b", PyValue.dict [])] ⟨[("b", PyValue.dict [])], false⟩
    "a" (.list [.int 1]) rfl

/-! ## C5 -/

/-- C5: `set` is atomic on failure. A non-text key raises `InvalidKey` at the
very first statement of `__setitem__`, and a text key with a non-serializable
value raises `UnsupportedValue` from `json.dumps`, in both cases before the
connection is touched — the error return therefore models raising before the
durable upsert and before `_update_cache`, leaving the prior durable value
for the key and the cache unchanged (on any handle state whatsoever). -/
theorem c5_set_atomic_failure :
    (∀ (c : Cupboard) (w : World) (key : PyKey) (v : PyValue),
       key.isStr = false → setitem c w key v = .error .invalidKey) ∧
    (∀ (c : Cupboard) (w : World) (s : String) (v : PyValue),
       encodable v = false → setitem c w (.str s) v = .error .unsupportedValue) := by
  constructor
  · intro c w key v hk
    cases key with
    | str s => simp [PyKey.isStr] at hk
    | int n => rfl
    | bool b => rfl
    | none => rfl
    | obj => rfl
  · intro c w s v hv
    simp [setitem, json_dumps, hv, exthrow]

/-- Witness for C5 at concrete inputs: `set(42, "v")` and
`set("k", SomeUnencodableThing())` on a fresh open store. -/
theorem c5_set_atomic_failure_witness :
    setitem (openCupboard false) freshWorld (.int 42) (.str "v") =
      .error .invalidKey ∧
    setitem (openCupboard false) freshWorld (.str "k") .obj =
      .error .unsupportedValue :=
  ⟨c5_set_atomic_failure.1 (openCupboard false) freshWorld (.int 42) (.str "v") rfl,
   c5_set_atomic_failure.2 (openCupboard false) freshWorld "k" .obj rfl⟩

/-! ## C6 -/

/-- C6: for every text key k not present in an open store (neither a durable
row nor a cache entry): `get(k)` fails with `KeyNotFound`, `delete(k)`
succeeds as a no-op returning the handle and world unchanged, and
`contains(k)` returns false. -/
theorem c6_absent_key (wb : Bool) (cch : Cache) (w : World) (k : String)
    (hc : lookupKey k cch = Option.none) (hf : lookupKey k w.file = Option.none) :
    getitem ⟨wb, some cch, true⟩ w (.str k) = .error .keyNotFound ∧
    delitem ⟨wb, some cch, true⟩ w (.str k) = .ok (⟨wb, some cch, true⟩, w) ∧
    containsOf ⟨wb, some cch, true⟩ w (.str k) = .ok false := by
  have hget : getitem ⟨wb, some cch, true⟩ w (.str k) = .error .keyNotFound := by
    simp [getitem, Cupboard.cacheOf, Cupboard.connOf, hc, hf, exbind_ok, exthrow]
  refine ⟨hget, ?_, ?_⟩
  · simp [delitem, Cupboard.cacheOf, Cupboard.connOf, keyToSql, exbind_ok, expure,
      cachePop, applyDelete, sqlDelete, popKey_eq_self_of_lookup_none k w.file hf,
      popKey_eq_self_of_lookup_none k cch hc]
  · simp [containsOf, hget]

/-- Witness for C6 at a concrete input: key "missing" on an open writeback
store holding one other key. -/
theorem c6_absent_key_witness :
    getitem ⟨true, some [("k", PyValue.list [])], true⟩
        ⟨[("k", PyValue.list [])], false⟩ (.str "missing") = .error .keyNotFound ∧
    delitem ⟨true, some [("k", PyValue.list [])], true⟩
        ⟨[("k", PyValue.list [])], false⟩ (.str "missing") =
      .ok (⟨true, some [("k", PyValue.list [])], true⟩, ⟨[("k", PyValue.list [])], false⟩) ∧
    containsOf ⟨true, some [("k", PyValue.list [])], true⟩
        ⟨[("k", PyValue.list [])], false⟩ (.str "missing") = .ok false :=
  c6_absent_key true [("k", PyValue.list [])] ⟨[("k", PyValue.list [])], false⟩
    "missing" rfl rfl

/-! ## Closed-handle helpers (shared by C3 and C10) -/

theorem close_fst (c : Cupboard) (w : World) :
    (close c w).1 = { c with _cache := Option.none, _conn := false } := by
  unfold close
  cases h : sync c w with
  | error e => cases e <;> rfl
  | ok w' =>
      by_cases hc : c._conn = true
      · simp [hc]
      · simp [hc]

/-- On a handle whose references have been cleared by `close` (`_cache` and
`_conn` both `None`), `get`, `set`, `delete`, `keys` and `size` all raise
`CupboardClosedError`, provided get/set reach the closed check: the key is
text and, for set, the value serializes (both validations precede it). -/
theorem closedHandle_ops (wb : Bool) (w : World) (k : String) (v : PyValue)
    (key : PyKey) (henc : encodable v = true) :
    getitem ⟨wb, Option.none, false⟩ w (.str k) = .error .closed ∧
    setitem ⟨wb, Option.none, false⟩ w (.str k) v = .error .closed ∧
    delitem ⟨wb, Option.none, false⟩ w key = .error .closed ∧
    keysOf ⟨wb, Option.none, false⟩ w = .error .closed ∧
    lenOf ⟨wb, Option.none, false⟩ w = .error .closed := by
  refine ⟨?_, ?_, ?_, ?_, ?_⟩
  · simp [getitem, Cupboard.cacheOf, exbind_err]
  · simp [setitem, json_dumps, henc, Cupboard.connOf, exbind_err, exbind_ok]
  · simp [delitem, Cupboard.connOf, exbind_err]
  · simp [keysOf, Cupboard.connOf, exbind_err]
  · simp [lenOf, Cupboard.connOf, exbind_err]

/-! ## C3 (corrected) -/

/-- C3 counterexample: the claim says every invocation of get/set/delete/
keys/size on a closed store fails with ClosedStoreError, but on the handle
produced by `close()`, `set("k", SomeUnencodableThing())` fails with
`UnsupportedValue` instead: `__setitem__` runs `json.dumps` before its first
access to the closed connection. -/
theorem c3_counterexample :
    setitem (close (openCupboard false) freshWorld).1 freshWorld (.str "k") .obj =
      .error .unsupportedValue ∧
    Err.unsupportedValue ≠ Err.closed :=
  ⟨rfl, by decide⟩

/-- C3 amended: after `close()` has been called on a store, `delete`, `keys`
and `size` always fail with ClosedStoreError, and so do `get` and `set` for
every invocation that passes their argument validation — a text key, and for
`set` a serializable value. (The validations run first even on a closed
handle: a non-text key fails with InvalidKey and an unserializable value
fails with UnsupportedValue, as the counterexample shows.) -/
theorem c3_closed_ops_amended (c0 : Cupboard) (w0 w : World) (k : String)
    (v : PyValue) (key : PyKey) (henc : encodable v = true) :
    getitem (close c0 w0).1 w (.str k) = .error .closed ∧
    setitem (close c0 w0).1 w (.str k) v = .error .closed ∧
    delitem (close c0 w0).1 w key = .error .closed ∧
    keysOf (close c0 w0).1 w = .error .closed ∧
    lenOf (close c0 w0).1 w = .error .closed := by
  rw [close_fst c0 w0]
  exact closedHandle_ops c0.writeback w k v key henc

/-- Witness for C3 amended at concrete inputs: a freshly closed store, key
"k", value 1, delete key None. -/
theorem c3_closed_ops_amended_witness :
    getitem (close (openCupboard true) freshWorld).1 freshWorld (.str "k") =
      .error .closed ∧
    setitem (close (openCupboard true) freshWorld).1 freshWorld (.str "k") (.int 1) =
      .error .closed ∧
    delitem (close (openCupboard true) freshWorld).1 freshWorld .none =
      .error .closed ∧
    keysOf (close (openCupboard true) freshWorld).1 freshWorld = .error .closed ∧
    lenOf (close (openCupboard true) freshWorld).1 freshWorld = .error .closed :=
  c3_closed_ops_amended (openCupboard true) freshWorld freshWorld "k" (.int 1)
    .none rfl

/-! ## C8 -/

/-- C8: `close()` is idempotent. On an open handle whose cached values all
serialize, the first invocation flushes the cache into the file, releases
the underlying connection (`released := true`) and clears both references;
every later invocation on the resulting handle returns without error and
without touching the world again — `sync` raises `CupboardClosedError` from
the cleared cache reference, the `except` clause swallows it, and
`conn.close()` is never reached a second time. -/
theorem c8_close_idempotent (wb : Bool) (cch : Cache) (w : World)
    (henc : encodableKVs cch = true) :
    close ⟨wb, some cch, true⟩ w =
      (⟨wb, Option.none, false⟩,
       ⟨cch.foldl (fun f p => upsert f p.1 p.2) w.file, true⟩, Option.none) ∧
    ∀ w2 : World,
      close ⟨wb, Option.none, false⟩ w2 = (⟨wb, Option.none, false⟩, w2, Option.none) := by
  constructor
  · have hs : sync ⟨wb, some cch, true⟩ w =
        .ok ⟨cch.foldl (fun f p => upsert f p.1 p.2) w.file, w.released⟩ := by
      cases cch with
      | nil => simp [sync, Cupboard.cacheOf, Cupboard.connOf, exbind_ok, expure]
      | cons p cch =>
          simp [sync, Cupboard.cacheOf, Cupboard.connOf, exbind_ok, expure, henc]
    rw [close, hs]
    rfl
  · intro w2
    rfl

/-- Witness for C8 at a concrete input: closing a writeback store holding
one serializable cached list, twice. -/
theorem c8_close_idempotent_witness :
    close ⟨true, some [("k", PyValue.list [.int 2])], true⟩ ⟨[("k", PyValue.list [.int 1])], false⟩ =
      (⟨true, Option.none, false⟩,
       ⟨[("k", PyValue.list [.int 2])], true⟩, Option.none) ∧
    close ⟨true, Option.none, false⟩ ⟨[("k", PyValue.list [.int 2])], true⟩ =
      (⟨true, Option.none, false⟩, ⟨[("k", PyValue.list [.int 2])], true⟩, Option.none) := by
  have h := c8_close_idempotent true [("k", PyValue.list [.int 2])]
    ⟨[("k", PyValue.list [.int 1])], false⟩ rfl
  exact ⟨h.1, h.2 ⟨[("k", PyValue.list [.int 2])], true⟩⟩

/-! ## C10 -/

/-- C10: when `sync` raises during the first `close()` (a cached value was
mutated to contain an unserializable shape), the `finally` block still
clears both references, so the handle is closed — all later key/value
operations raise ClosedStoreError and later `close()` calls are no-ops —
but `conn.close()` is never reached (the world, including its `released`
flag, is returned untouched) and the sync error propagates out of `close`. -/
theorem c10_close_sync_failure (wb : Bool) (cch : Cache) (w : World)
    (hne : cch.isEmpty = false) (hbad : encodableKVs cch = false) :
    close ⟨wb, some cch, true⟩ w =
      (⟨wb, Option.none, false⟩, w, some .unsupportedValue) ∧
    (∀ (w2 : World) (k : String) (v : PyValue) (key : PyKey),
      encodable v = true →
      getitem ⟨wb, Option.none, false⟩ w2 (.str k) = .error .closed ∧
      setitem ⟨wb, Option.none, false⟩ w2 (.str k) v = .error .closed ∧
      delitem ⟨wb, Option.none, false⟩ w2 key = .error .closed ∧
      keysOf ⟨wb, Option.none, false⟩ w2 = .error .closed ∧
      lenOf ⟨wb, Option.none, false⟩ w2 = .error .closed) ∧
    (∀ w2 : World,
      close ⟨wb, Option.none, false⟩ w2 = (⟨wb, Option.none, false⟩, w2, Option.none)) := by
  refine ⟨?_, ?_, fun w2 => rfl⟩
  · have hs : sync ⟨wb, some cch, true⟩ w = .error .unsupportedValue := by
      simp [sync, Cupboard.cacheOf, Cupboard.connOf, exbind_ok, expure, exthrow, hne, hbad]
    rw [close, hs]
  · intro w2 k v key henc
    exact closedHandle_ops wb w2 k v key henc

/-- Witness for C10 at a concrete input: a cached list that was mutated in
place to contain an unserializable object. -/
theorem c10_close_sync_failure_witness :
    close ⟨true, some [("k", PyValue.list [.obj])], true⟩ ⟨[("k", PyValue.list [])], false⟩ =
      (⟨true, Option.none, false⟩, ⟨[("k", PyValue.list [])], false⟩, some .unsupportedValue) ∧
    getitem ⟨true, Option.none, false⟩ freshWorld (.str "k") = .error .closed := by
  have h := c10_close_sync_failure true [("k", PyValue.list [.obj])]
    ⟨[("k", PyValue.list [])], false⟩ rfl rfl
  exact ⟨h.1, ((h.2.1 freshWorld "k" .null .none rfl).1)⟩

/-! ## C9 (corrected) -/

/-- C9 counterexample: the claim says delete with a non-text key is a
storage-level no-op matching no text key. But on an open store holding the
text key "42", `delete(42)` with the integer 42 removes that row: sqlite
applies TEXT affinity to the bound parameter, comparing it as the text "42".
Before the delete the row is present; afterwards it is gone. -/
theorem c9_counterexample :
    delitem (openCupboard false) ⟨[("42", PyValue.int 7)], false⟩ (.int 42) =
      .ok (openCupboard false, ⟨[], false⟩) ∧
    lookupKey "42" [("42", PyValue.int 7)] = some (.int 7) ∧
    lookupKey "42" ([] : Table) = Option.none :=
  ⟨rfl, rfl, rfl⟩

/-- C9 amended: delete performs no key-type validation — it never raises
InvalidKey, for any key and any handle state. On an open store, a `None` key
matches no row and leaves handle and world unchanged; a key sqlite cannot
bind (an unbindable object, or an int outside the 64-bit range) raises a
storage-layer error before any row is touched; and an in-range integer key
is compared under TEXT affinity as its decimal text, deleting the row whose
text key equals that text (the cache, whose keys are strings, is unchanged
by any non-text delete). -/
theorem c9_delete_no_validation :
    (∀ (c : Cupboard) (w : World) (key : PyKey),
       delitem c w key ≠ .error .invalidKey) ∧
    (∀ (wb : Bool) (cch : Cache) (w : World),
       delitem ⟨wb, some cch, true⟩ w .none = .ok (⟨wb, some cch, true⟩, w) ∧
       delitem ⟨wb, some cch, true⟩ w .obj = .error .storageError) ∧
    (∀ (wb : Bool) (cch : Cache) (w : World) (n : Int),
       -(2 ^ 63) ≤ n → n < 2 ^ 63 →
       delitem ⟨wb, some cch, true⟩ w (.int n) =
         .ok (⟨wb, some cch, true⟩, { w with file := sqlDelete w.file (toString n) })) := by
  refine ⟨?_, ?_, ?_⟩
  · intro c w key
    rw [delitem]
    cases hcc : c._conn with
    | false => simp [Cupboard.connOf, hcc, exbind_err]
    | true =>
        cases hks : keyToSql key with
        | none => simp [Cupboard.connOf, hcc, exbind_ok, exthrow]
        | some sqlKey =>
            cases hca : c._cache with
            | none => simp [Cupboard.connOf, Cupboard.cacheOf, hcc, hca, exbind_ok, exmap_err]
            | some cch => simp [Cupboard.connOf, Cupboard.cacheOf, hcc, hca, exbind_ok, exmap_ok, expure]
  · intro wb cch w
    constructor
    · simp [delitem, Cupboard.connOf, Cupboard.cacheOf, keyToSql, cachePop, applyDelete,
        exbind_ok, expure]
    · rfl
  · intro wb cch w n h1 h2
    have hks : keyToSql (.int n) = some (some (toString n)) := by
      rw [keyToSql, if_neg]
      push_neg
      exact ⟨by linarith, by linarith⟩
    simp [delitem, Cupboard.connOf, Cupboard.cacheOf, hks, cachePop, applyDelete,
      exbind_ok, expure]

/-- Witness for C9 amended at concrete inputs: delete with None and with the
integer 1 on an open store holding the text keys "1" and "x". -/
theorem c9_delete_no_validation_witness :
    delitem (openCupboard false) ⟨[("1", PyValue.null), ("x", PyValue.null)], false⟩ .none =
      .ok (openCupboard false, ⟨[("1", PyValue.null), ("x", PyValue.null)], false⟩) ∧
    delitem (openCupboard false) ⟨[("1", PyValue.null), ("x", PyValue.null)], false⟩ (.int 1) =
      .ok (openCupboard false,
        { file := sqlDelete [("1", PyValue.null), ("x", PyValue.null)] (toString (1 : Int)),
          released := false }) := by
  constructor
  · exact (c9_delete_no_validation.2.1 false [] ⟨[("1", PyValue.null), ("x", PyValue.null)], false⟩).1
  · exact c9_delete_no_validation.2.2 false [] ⟨[("1", PyValue.null), ("x", PyValue.null)], false⟩ 1
      (by norm_num) (by norm_num)


/-! ## Inversion lemmas for successful operations -/

theorem getitem_ok_inv (c : Cupboard) (w : World) (s : String) (c' : Cupboard)
    (v : PyValue) (h : getitem c w (.str s) = .ok (c', v)) :
    ∃ cch, c._cache = some cch ∧
      ((lookupKey s cch = some v ∧ c' = c) ∨
       (lookupKey s cch = Option.none ∧ c._conn = true ∧
        lookupKey s w.file = some v ∧
        c' = { c with _cache := some (if c.writeback && isMutable v then upsert cch s v else popKey s cch) })) := by
  cases hca : c._cache with
  | none => simp [getitem, Cupboard.cacheOf, hca, exbind_err] at h
  | some cch =>
      refine ⟨cch, rfl, ?_⟩
      cases hl : lookupKey s cch with
      | some v0 =>
          simp [getitem, Cupboard.cacheOf, hca, hl, exbind_ok, expure] at h
          exact Or.inl ⟨congrArg some h.2, h.1.symm⟩
      | none =>
          cases hcc : c._conn with
          | false =>
              simp [getitem, Cupboard.cacheOf, Cupboard.connOf, hca, hl, hcc,
                exbind_ok, exbind_err] at h
          | true =>
              cases hf : lookupKey s w.file with
              | none =>
                  simp [getitem, Cupboard.cacheOf, Cupboard.connOf, hca, hl, hcc, hf,
                    exbind_ok, exthrow] at h
              | some v0 =>
                  simp [getitem, Cupboard.cacheOf, Cupboard.connOf, update_cache,
                    hca, hl, hcc, hf, exbind_ok, exmap_ok, expure] at h
                  obtain ⟨h1, h2⟩ := h
                  subst h2
                  refine Or.inr ⟨rfl, rfl, rfl, ?_⟩
                  rw [← h1]
                  simp [upsert, Bool.and_eq_true]

theorem setitem_ok_inv (c : Cupboard) (w : World) (s : String) (v : PyValue)
    (c' : Cupboard) (w' : World) (h : setitem c w (.str s) v = .ok (c', w')) :
    c._conn = true ∧ encodable v = true ∧ ∃ cch, c._cache = some cch ∧
      c' = { c with _cache := some (if c.writeback && isMutable v then upsert cch s v else popKey s cch) } ∧
      w' = { w with file := upsert w.file s v } := by
  cases he : encodable v with
  | false => simp [setitem, json_dumps, he, exthrow] at h
  | true =>
      cases hcc : c._conn with
      | false => simp [setitem, json_dumps, he, Cupboard.connOf, hcc, exbind_err, exbind_ok] at h
      | true =>
          refine ⟨rfl, rfl, ?_⟩
          cases hca : c._cache with
          | none =>
              simp [setitem, json_dumps, he, Cupboard.connOf, Cupboard.cacheOf,
                update_cache, hcc, hca, exbind_ok, exbind_err, exmap_err] at h
          | some cch =>
              simp [setitem, json_dumps, he, Cupboard.connOf, Cupboard.cacheOf,
                update_cache, hcc, hca, exbind_ok, exmap_ok, expure] at h
              refine ⟨cch, rfl, ?_, h.2.symm⟩
              rw [← h.1]
              simp [upsert, Bool.and_eq_true]

theorem delitem_ok_inv (c : Cupboard) (w : World) (key : PyKey)
    (c' : Cupboard) (w' : World) (h : delitem c w key = .ok (c', w')) :
    c._conn = true ∧ ∃ cch sqlKey, c._cache = some cch ∧
      keyToSql key = some sqlKey ∧
      c' = { c with _cache := some (cachePop key cch) } ∧
      w' = { w with file := applyDelete sqlKey w.file } := by
  cases hcc : c._conn with
  | false => simp [delitem, Cupboard.connOf, hcc, exbind_err] at h
  | true =>
      refine ⟨rfl, ?_⟩
      cases hks : keyToSql key with
      | none => simp [delitem, Cupboard.connOf, hcc, hks, exbind_ok, exthrow] at h
      | some sqlKey =>
          cases hca : c._cache with
          | none =>
              simp [delitem, Cupboard.connOf, Cupboard.cacheOf, hcc, hks, hca,
                exbind_ok, exmap_err] at h
          | some cch =>
              simp [delitem, Cupboard.connOf, Cupboard.cacheOf, hcc, hks, hca,
                exbind_ok, exmap_ok, expure] at h
              exact ⟨cch, sqlKey, rfl, rfl, h.1.symm, h.2.symm⟩

theorem sync_ok_inv (c : Cupboard) (w : World) (w' : World)
    (h : sync c w = .ok w') :
    ∃ cch, c._cache = some cch ∧
      ((cch.isEmpty = true ∧ w' = w) ∨
       (cch.isEmpty = false ∧ c._conn = true ∧ encodableKVs cch = true ∧
        w' = { w with file := cch.foldl (fun f p => upsert f p.1 p.2) w.file })) := by
  cases hca : c._cache with
  | none => simp [sync, Cupboard.cacheOf, hca, exbind_err] at h
  | some cch =>
      refine ⟨cch, rfl, ?_⟩
      cases hemp : cch.isEmpty with
      | true =>
          simp [sync, Cupboard.cacheOf, hca, hemp, exbind_ok, expure] at h
          exact Or.inl ⟨rfl, h.symm⟩
      | false =>
          cases hcc : c._conn with
          | false =>
              simp [sync, Cupboard.cacheOf, Cupboard.connOf, hca, hemp, hcc,
                exbind_ok, exbind_err] at h
          | true =>
              cases henc : encodableKVs cch with
              | false =>
                  simp [sync, Cupboard.cacheOf, Cupboard.connOf, hca, hemp, hcc,
                    henc, exbind_ok, exthrow] at h
              | true =>
                  simp [sync, Cupboard.cacheOf, Cupboard.connOf, hca, hemp, hcc,
                    henc, exbind_ok, expure] at h
                  exact Or.inr ⟨rfl, rfl, rfl, h.symm⟩

theorem mutateCached_some_inv (c : Cupboard) (k : String) (v' : PyValue)
    (c' : Cupboard) (h : mutateCached c k v' = some c') :
    ∃ cch v, c._cache = some cch ∧ lookupKey k cch = some v ∧
      isMutable v = true ∧ isMutable v' = true ∧
      c' = { c with _cache := some (cch.map (fun p => if p.1 = k then (k, v') else p)) } := by
  cases hca : c._cache with
  | none => simp [mutateCached, hca] at h
  | some cch =>
      cases hl : lookupKey k cch with
      | none => simp [mutateCached, hca, hl] at h
      | some v =>
          simp only [mutateCached, hca, hl] at h
          split at h
          · rename_i hcond
            have hparts := hcond
            simp only [Bool.and_eq_true] at hparts
            refine ⟨cch, v, rfl, hl, hparts.1.1, hparts.1.2, ?_⟩
            simp only [Option.some.injEq] at h
            exact h.symm
          · exact absurd h (by simp)

/-! ## Lemmas about syncing a mutated cache -/

theorem lookupKey_some_exists (k : String) (l : List (String × PyValue))
    (v : PyValue) (h : lookupKey k l = some v) : ∃ p ∈ l, p.1 = k := by
  induction l with
  | nil => exact absurd h (by rw [lookupKey]; simp)
  | cons p l ih =>
      obtain ⟨a, u⟩ := p
      by_cases ha : a = k
      · exact ⟨(a, u), List.mem_cons_self _ _, ha⟩
      · rw [lookupKey, if_neg ha] at h
        obtain ⟨q, hq, hqk⟩ := ih h
        exact ⟨q, List.mem_cons_of_mem _ hq, hqk⟩

theorem lookupKey_foldl_upsert_nokey (k : String)
    (ps : List (String × PyValue)) (t : Table)
    (h : ∀ p ∈ ps, ¬ p.1 = k) :
    lookupKey k (ps.foldl (fun f p => upsert f p.1 p.2) t) = lookupKey k t := by
  induction ps generalizing t with
  | nil => rfl
  | cons p ps ih =>
      rw [List.foldl_cons]
      rw [ih (upsert t p.1 p.2) (fun q hq => h q (List.mem_cons_of_mem _ hq))]
      exact lookupKey_upsert_ne t p.1 k p.2 (fun he => h p (List.mem_cons_self _ _) he.symm)

theorem lookupKey_foldl_upsert_const (k : String) (v' : PyValue)
    (ps : List (String × PyValue)) (t : Table)
    (hex : ∃ p ∈ ps, p.1 = k) (hall : ∀ p ∈ ps, p.1 = k → p.2 = v') :
    lookupKey k (ps.foldl (fun f p => upsert f p.1 p.2) t) = some v' := by
  induction ps generalizing t with
  | nil => obtain ⟨p, hp, _⟩ := hex; exact absurd hp (List.not_mem_nil p)
  | cons p ps ih =>
      rw [List.foldl_cons]
      by_cases hps : ∃ q ∈ ps, q.1 = k
      · exact ih (upsert t p.1 p.2) hps (fun q hq hqk => hall q (List.mem_cons_of_mem _ hq) hqk)
      · have hpk : p.1 = k := by
          obtain ⟨q, hq, hqk⟩ := hex
          rcases List.mem_cons.mp hq with rfl | hmem
          · exact hqk
          · exact absurd ⟨q, hmem, hqk⟩ hps
        have hpv : p.2 = v' := hall p (List.mem_cons_self _ _) hpk
        rw [lookupKey_foldl_upsert_nokey k ps _ (fun q hq hqk => hps ⟨q, hq, hqk⟩)]
        rw [hpk, hpv, lookupKey_upsert_self]

theorem mem_map_mutate_key (k : String) (v' : PyValue)
    (l : List (String × PyValue)) (p : String × PyValue)
    (hp : p ∈ l.map (fun q => if q.1 = k then (k, v') else q))
    (hk : p.1 = k) : p.2 = v' := by
  obtain ⟨q, hq, hfq⟩ := List.mem_map.mp hp
  by_cases h : q.1 = k
  · rw [if_pos h] at hfq
    rw [← hfq]
  · rw [if_neg h] at hfq
    rw [← hfq] at hk
    exact absurd hk h

theorem exists_map_mutate_key (k : String) (v' : PyValue)
    (l : List (String × PyValue)) (hex : ∃ p ∈ l, p.1 = k) :
    ∃ p ∈ l.map (fun q => if q.1 = k then (k, v') else q), p.1 = k := by
  obtain ⟨p, hp, hpk⟩ := hex
  exact ⟨(k, v'), List.mem_map.mpr ⟨p, hp, by rw [if_pos hpk]⟩, rfl⟩

/-! ## C2 -/

/-- C2: in writeback mode, after `v = get(k)` returned a mutable value, the
cache holds the very object the caller got; mutating it in place
(`mutateCached`) and then calling `sync()` — or `close()`, which runs the
same sync — durably upserts the mutated value, so a fresh handle (either
writeback mode) over the resulting file reads the mutated value back. -/
theorem c2_writeback_mutation_persists (cch : Cache) (w : World) (k : String)
    (v v' : PyValue) (c1 c2 : Cupboard) (w' : World) (wb2 : Bool)
    (hget : getitem ⟨true, some cch, true⟩ w (.str k) = .ok (c1, v))
    (hmut : isMutable v = true)
    (hmc : mutateCached c1 k v' = some c2)
    (hsync : sync c2 w = .ok w') :
    (∃ c3, getitem (openCupboard wb2) ⟨w'.file, false⟩ (.str k) = .ok (c3, v')) ∧
    close c2 w = ({ c2 with _cache := Option.none, _conn := false },
                  { w' with released := true }, Option.none) := by
  obtain ⟨cch0, hca1, hcases⟩ := getitem_ok_inv _ _ _ _ _ hget
  have hc0 : cch0 = cch := by
    have := hca1.symm
    simpa using this
  subst hc0
  have hkey : ∃ cch1, c1._cache = some cch1 ∧ lookupKey k cch1 = some v ∧
      c1._conn = true := by
    rcases hcases with ⟨hl, rfl⟩ | ⟨hl, hcn, hf, rfl⟩
    · exact ⟨cch0, rfl, hl, rfl⟩
    · refine ⟨upsert cch0 k v, ?_, lookupKey_upsert_self cch0 k v, rfl⟩
      simp [hmut]
  obtain ⟨cch1, hcache1, hlook1, hconn1⟩ := hkey
  obtain ⟨cch1', v1, hca2, hl2, hm1, hm2, rfl⟩ := mutateCached_some_inv _ _ _ _ hmc
  have hcc1 : cch1' = cch1 := by
    rw [hcache1] at hca2
    exact (Option.some.inj hca2).symm
  subst hcc1
  obtain ⟨cch2, hca3, hsy⟩ := sync_ok_inv _ _ _ hsync
  have hcch2 : cch2 = cch1'.map (fun p => if p.1 = k then (k, v') else p) := by
    have := hca3
    simp only at this
    exact (Option.some.inj this).symm
  subst hcch2
  have hexk : ∃ p ∈ cch1', p.1 = k := lookupKey_some_exists k cch1' v1 hl2
  have hne : (cch1'.map (fun p => if p.1 = k then (k, v') else p)).isEmpty = false := by
    obtain ⟨p, hp, _⟩ := hexk
    cases cch1' with
    | nil => exact absurd hp (List.not_mem_nil p)
    | cons q l => rfl
  rcases hsy with ⟨hemp, _⟩ | ⟨_, _, henc2, hw'⟩
  · rw [hne] at hemp
    exact absurd hemp (by simp)
  · have hfile : lookupKey k w'.file = some v' := by
      rw [hw']
      exact lookupKey_foldl_upsert_const k v' _ w.file
        (exists_map_mutate_key k v' cch1' hexk)
        (fun p hp hpk => mem_map_mutate_key k v' cch1' p hp hpk)
    constructor
    · refine ⟨⟨wb2, some (if wb2 && isMutable v' then upsert [] k v' else popKey k []), true⟩, ?_⟩
      simp [getitem, openCupboard, Cupboard.cacheOf, Cupboard.connOf, lookupKey,
        update_cache, hfile, exbind_ok, exmap_ok, expure, upsert, Bool.and_eq_true]
    · rw [close, hsync]
      simp [hconn1]

/-- Witness for C2 at a concrete input: get the cached list [1] under key
"k", mutate it in place into [1, 2], sync, and re-read from a fresh
non-writeback handle over the synced file; and the close path. -/
theorem c2_writeback_mutation_persists_witness :
    (∃ c3, getitem (openCupboard false)
        ⟨[("k", PyValue.list [.int 1, .int 2])], false⟩ (.str "k") =
        .ok (c3, .list [.int 1, .int 2])) ∧
    close ⟨true, some [("k", PyValue.list [.int 1, .int 2])], true⟩
        ⟨[("k", PyValue.list [.int 1])], false⟩ =
      (⟨true, Option.none, false⟩,
       ⟨[("k", PyValue.list [.int 1, .int 2])], true⟩, Option.none) :=
  c2_writeback_mutation_persists [("k", PyValue.list [.int 1])]
    ⟨[("k", PyValue.list [.int 1])], false⟩ "k"
    (.list [.int 1]) (.list [.int 1, .int 2])
    ⟨true, some [("k", PyValue.list [.int 1])], true⟩
    ⟨true, some [("k", PyValue.list [.int 1, .int 2])], true⟩
    ⟨[("k", PyValue.list [.int 1, .int 2])], false⟩ false
    rfl rfl rfl rfl

/-! ## Reachable handle states -/

theorem popKey_mem (k : String) (l : List (String × PyValue))
    (p : String × PyValue) (hp : p ∈ popKey k l) : p ∈ l := by
  induction l with
  | nil => exact absurd hp (List.not_mem_nil p)
  | cons q l ih =>
      obtain ⟨a, u⟩ := q
      by_cases ha : a = k
      · rw [popKey, if_pos ha] at hp
        exact List.mem_cons_of_mem _ (ih hp)
      · rw [popKey, if_neg ha] at hp
        rcases List.mem_cons.mp hp with rfl | hmem
        · exact List.mem_cons_self _ _
        · exact List.mem_cons_of_mem _ (ih hmem)

/-- The states a `Cupboard` handle and its backing world can reach: opened
over an arbitrary existing file, then any interleaving of the store's own
operations (successful or not — a raising operation leaves the state as it
was, since every raise in the source happens before its mutations) and of
in-place caller mutations of cached values. -/
inductive Reach : Cupboard → World → Prop where
  | init (wb : Bool) (w : World) : Reach (openCupboard wb) w
  | set (c : Cupboard) (w : World) (key : PyKey) (v : PyValue) (c' : Cupboard)
      (w' : World) : Reach c w → setitem c w key v = .ok (c', w') → Reach c' w'
  | get (c : Cupboard) (w : World) (key : PyKey) (c' : Cupboard) (v : PyValue) :
      Reach c w → getitem c w key = .ok (c', v) → Reach c' w
  | del (c : Cupboard) (w : World) (key : PyKey) (c' : Cupboard) (w' : World) :
      Reach c w → delitem c w key = .ok (c', w') → Reach c' w'
  | syncStep (c : Cupboard) (w : World) (w' : World) :
      Reach c w → sync c w = .ok w' → Reach c w'
  | mutStep (c : Cupboard) (w : World) (k : String) (v' : PyValue) (c' : Cupboard) :
      Reach c w → mutateCached c k v' = some c' → Reach c' w
  | closeStep (c : Cupboard) (w : World) :
      Reach c w → Reach (close c w).1 (close c w).2.1

/-! ## C4 -/

/-- C4: in every reachable state, the cache contains only mutable-shaped
values and is non-empty only in writeback mode; and the transition clauses:
a key is gone from the cache right after it is overwritten by `set` with a
non-mutable value, right after it is deleted, and right after a `get` that
read it from storage (not from the cache) as a non-mutable value. -/
theorem c4_cache_invariant :
    (∀ c w, Reach c w → ∀ cch, c._cache = some cch →
       (∀ p ∈ cch, isMutable p.2 = true) ∧ (c.writeback = false → cch = [])) ∧
    (∀ (c : Cupboard) (w : World) (k : String) (v : PyValue) (c' : Cupboard)
       (w' : World), setitem c w (.str k) v = .ok (c', w') → isMutable v = false →
       ∀ cch', c'._cache = some cch' → lookupKey k cch' = Option.none) ∧
    (∀ (c : Cupboard) (w : World) (k : String) (c' : Cupboard) (w' : World),
       delitem c w (.str k) = .ok (c', w') →
       ∀ cch', c'._cache = some cch' → lookupKey k cch' = Option.none) ∧
    (∀ (c : Cupboard) (w : World) (k : String) (v : PyValue) (c' : Cupboard),
       (∀ cch, c._cache = some cch → lookupKey k cch = Option.none) →
       getitem c w (.str k) = .ok (c', v) → isMutable v = false →
       ∀ cch', c'._cache = some cch' → lookupKey k cch' = Option.none) := by
  have hpop : ∀ (k : String) (cch : Cache), lookupKey k (popKey k cch) = Option.none :=
    lookupKey_popKey_self
  refine ⟨?_, ?_, ?_, ?_⟩
  · intro c w h
    induction h with
    | init wb w =>
        intro cch hc
        have : cch = [] := by simpa [openCupboard] using hc.symm
        subst this
        exact ⟨fun p hp => absurd hp (List.not_mem_nil p), fun _ => rfl⟩
    | set c w key v c' w' hr hop ih =>
        cases key with
        | str s =>
            obtain ⟨hcc, henc, cch, hca, rfl, rfl⟩ := setitem_ok_inv _ _ _ _ _ _ hop
            intro cch' hc'
            have hcch' : cch' = if c.writeback && isMutable v then upsert cch s v
                else popKey s cch := by simpa using hc'.symm
            obtain ⟨ihmut, ihwb⟩ := ih cch hca
            subst hcch'
            constructor
            · intro p hp
              by_cases hwm : (c.writeback && isMutable v) = true
              · rw [if_pos hwm] at hp
                rcases List.mem_append.mp hp with hmem | hsing
                · exact ihmut p (popKey_mem s cch p hmem)
                · have : p = (s, v) := by simpa using hsing
                  subst this
                  exact (Bool.and_eq_true _ _ |>.mp hwm).2
              · rw [if_neg hwm] at hp
                exact ihmut p (popKey_mem s cch p hp)
            · intro hwb
              have hwb' : c.writeback = false := hwb
              rw [hwb', Bool.false_and, if_neg (by simp)]
              rw [ihwb hwb']
              rfl
        | int n => simp [setitem, exthrow] at hop
        | bool b => simp [setitem, exthrow] at hop
        | none => simp [setitem, exthrow] at hop
        | obj => simp [setitem, exthrow] at hop
    | get c w key c' v hr hop ih =>
        cases key with
        | str s =>
            obtain ⟨cch, hca, hcases⟩ := getitem_ok_inv _ _ _ _ _ hop
            rcases hcases with ⟨hl, rfl⟩ | ⟨hl, hcc, hf, rfl⟩
            · exact ih
            · intro cch' hc'
              have hcch' : cch' = if c.writeback && isMutable v then upsert cch s v
                  else popKey s cch := by simpa using hc'.symm
              obtain ⟨ihmut, ihwb⟩ := ih cch hca
              subst hcch'
              constructor
              · intro p hp
                by_cases hwm : (c.writeback && isMutable v) = true
                · rw [if_pos hwm] at hp
                  rcases List.mem_append.mp hp with hmem | hsing
                  · exact ihmut p (popKey_mem s cch p hmem)
                  · have : p = (s, v) := by simpa using hsing
                    subst this
                    exact (Bool.and_eq_true _ _ |>.mp hwm).2
                · rw [if_neg hwm] at hp
                  exact ihmut p (popKey_mem s cch p hp)
              · intro hwb
                have hwb' : c.writeback = false := hwb
                rw [hwb', Bool.false_and, if_neg (by simp)]
                rw [ihwb hwb']
                rfl
        | int n => simp [getitem, exthrow] at hop
        | bool b => simp [getitem, exthrow] at hop
        | none => simp [getitem, exthrow] at hop
        | obj => simp [getitem, exthrow] at hop
    | del c w key c' w' hr hop ih =>
        obtain ⟨hcc, cch, sqlKey, hca, hks, rfl, rfl⟩ := delitem_ok_inv _ _ _ _ _ hop
        intro cch' hc'
        have hcch' : cch' = cachePop key cch := by simpa using hc'.symm
        obtain ⟨ihmut, ihwb⟩ := ih cch hca
        subst hcch'
        constructor
        · intro p hp
          cases key with
          | str s => exact ihmut p (popKey_mem s cch p hp)
          | int n => exact ihmut p hp
          | bool b => exact ihmut p hp
          | none => exact ihmut p hp
          | obj => exact ihmut p hp
        · intro hwb
          rw [ihwb hwb]
          cases key <;> rfl
    | syncStep c w w' hr hop ih => exact ih
    | mutStep c w k v' c' hr hop ih =>
        obtain ⟨cch, v, hca, hl, hm1, hm2, rfl⟩ := mutateCached_some_inv _ _ _ _ hop
        intro cch' hc'
        have hcch' : cch' = cch.map (fun p => if p.1 = k then (k, v') else p) := by
          simpa using hc'.symm
        obtain ⟨ihmut, ihwb⟩ := ih cch hca
        subst hcch'
        constructor
        · intro p hp
          obtain ⟨q, hq, hfq⟩ := List.mem_map.mp hp
          by_cases hqk : q.1 = k
          · rw [if_pos hqk] at hfq
            rw [← hfq]
            exact hm2
          · rw [if_neg hqk] at hfq
            rw [← hfq]
            exact ihmut q hq
        · intro hwb
          rw [ihwb hwb]
          rfl
    | closeStep c w hr ih =>
        intro cch hc
        rw [close_fst] at hc
        simp at hc
  · intro c w k v c' w' hop hnm cch' hc'
    obtain ⟨hcc, henc, cch, hca, rfl, rfl⟩ := setitem_ok_inv _ _ _ _ _ _ hop
    have hcch' : cch' = if c.writeback && isMutable v then upsert cch k v
        else popKey k cch := by simpa using hc'.symm
    rw [hnm, Bool.and_false, if_neg (by simp)] at hcch'
    rw [hcch']
    exact hpop k cch
  · intro c w k c' w' hop cch' hc'
    obtain ⟨hcc, cch, sqlKey, hca, hks, rfl, rfl⟩ := delitem_ok_inv _ _ _ _ _ hop
    have hcch' : cch' = cachePop (.str k) cch := by simpa using hc'.symm
    rw [hcch']
    exact hpop k cch
  · intro c w k v c' hnone hop hnm cch' hc'
    obtain ⟨cch, hca, hcases⟩ := getitem_ok_inv _ _ _ _ _ hop
    rcases hcases with ⟨hl, rfl⟩ | ⟨hl, hcc, hf, rfl⟩
    · rw [hnone cch hca] at hl
      exact absurd hl (by simp)
    · have hcch' : cch' = if c.writeback && isMutable v then upsert cch k v
          else popKey k cch := by simpa using hc'.symm
      rw [hnm, Bool.and_false, if_neg (by simp)] at hcch'
      rw [hcch']
      exact hpop k cch

/-- Witness for C4 at concrete inputs: the invariant clause at the reachable
state produced by opening a writeback store over an empty file and setting
"a" to the list [1]; and the delete clause at a store whose cache holds "a". -/
theorem c4_cache_invariant_witness :
    (∀ p ∈ [("a", PyValue.list [.int 1])], isMutable p.2 = true) ∧
    lookupKey "a" ([] : Cache) = Option.none :=
  ⟨(c4_cache_invariant.1 ⟨true, some [("a", PyValue.list [.int 1])], true⟩
      ⟨[("a", PyValue.list [.int 1])], false⟩
      (Reach.set (openCupboard true) ⟨[], false⟩ (.str "a") (.list [.int 1])
        ⟨true, some [("a", PyValue.list [.int 1])], true⟩
        ⟨[("a", PyValue.list [.int 1])], false⟩
        (Reach.init true ⟨[], false⟩) rfl)
      [("a", PyValue.list [.int 1])] rfl).1,
   c4_cache_invariant.2.2.1 ⟨true, some [("a", PyValue.list [.int 1])], true⟩
      ⟨[("a", PyValue.list [.int 1])], false⟩ "a" ⟨true, some [], true⟩ ⟨[], false⟩
      rfl [] rfl⟩

/-! ## Key-multiset bookkeeping for C7 -/

theorem popKey_mem_ne (k : String) (l : List (String × PyValue))
    (p : String × PyValue) (hp : p ∈ popKey k l) : ¬ p.1 = k := by
  induction l with
  | nil => exact absurd hp (List.not_mem_nil p)
  | cons q l ih =>
      obtain ⟨a, u⟩ := q
      by_cases ha : a = k
      · rw [popKey, if_pos ha] at hp
        exact ih hp
      · rw [popKey, if_neg ha] at hp
        rcases List.mem_cons.mp hp with rfl | hmem
        · exact ha
        · exact ih hmem

theorem map_fst_popKey (k : String) (t : List (String × PyValue)) :
    (popKey k t).map Prod.fst = (t.map Prod.fst).filter (fun a => a ≠ k) := by
  induction t with
  | nil => rfl
  | cons p t ih =>
      obtain ⟨a, u⟩ := p
      by_cases ha : a = k
      · rw [popKey, if_pos ha]
        rw [List.map_cons, List.filter_cons]
        simp [ha, ih]
      · rw [popKey, if_neg ha]
        rw [List.map_cons, List.map_cons, List.filter_cons]
        simp [ha, ih]

theorem map_fst_upsert (t : Table) (k : String) (v : PyValue) :
    (upsert t k v).map Prod.fst = (t.map Prod.fst).filter (fun a => a ≠ k) ++ [k] := by
  rw [upsert, List.map_append, map_fst_popKey]
  rfl

theorem nodup_keys_upsert (t : Table) (k : String) (v : PyValue)
    (h : (t.map Prod.fst).Nodup) : ((upsert t k v).map Prod.fst).Nodup := by
  rw [map_fst_upsert]
  refine List.Nodup.append (h.filter _) (List.nodup_singleton k) ?_
  intro a ha hak
  have h1 : ¬ a = k := of_decide_eq_true (List.mem_filter.mp ha).2
  have h2 : a = k := by simpa using hak
  exact h1 h2

theorem toFinset_keys_upsert (t : Table) (k : String) (v : PyValue) :
    ((upsert t k v).map Prod.fst).toFinset =
      insert k (t.map Prod.fst).toFinset := by
  rw [map_fst_upsert]
  ext a
  simp only [List.mem_toFinset, List.mem_append, List.mem_filter,
    List.mem_singleton, Finset.mem_insert, decide_eq_true_eq]
  constructor
  · rintro (⟨hmem, _⟩ | rfl)
    · exact Or.inr hmem
    · exact Or.inl rfl
  · rintro (rfl | hmem)
    · exact Or.inr rfl
    · by_cases hak : a = k
      · exact Or.inr hak
      · exact Or.inl ⟨hmem, hak⟩

theorem toFinset_keys_popKey (t : Table) (k : String) :
    ((popKey k t).map Prod.fst).toFinset = ((t.map Prod.fst).toFinset).erase k := by
  rw [map_fst_popKey]
  ext a
  simp only [List.mem_toFinset, List.mem_filter, Finset.mem_erase,
    decide_eq_true_eq]
  tauto

theorem nodup_keys_popKey (t : Table) (k : String)
    (h : (t.map Prod.fst).Nodup) : ((popKey k t).map Prod.fst).Nodup := by
  rw [map_fst_popKey]
  exact h.filter _

theorem mem_keys_of_lookup (k : String) (t : List (String × PyValue))
    (v : PyValue) (h : lookupKey k t = some v) : k ∈ t.map Prod.fst := by
  obtain ⟨p, hp, hpk⟩ := lookupKey_some_exists k t v h
  exact List.mem_map.mpr ⟨p, hp, hpk⟩

theorem mem_keys_upsert_of_mem (t : Table) (k a : String) (v : PyValue)
    (ha : a ∈ t.map Prod.fst) : a ∈ (upsert t k v).map Prod.fst := by
  have : a ∈ ((upsert t k v).map Prod.fst).toFinset := by
    rw [toFinset_keys_upsert]
    exact Finset.mem_insert_of_mem (List.mem_toFinset.mpr ha)
  exact List.mem_toFinset.mp this

theorem foldl_upsert_keys_subset (ps : List (String × PyValue)) (t : Table)
    (hsub : ∀ p ∈ ps, p.1 ∈ t.map Prod.fst)
    (hnd : (t.map Prod.fst).Nodup) :
    ((ps.foldl (fun f p => upsert f p.1 p.2) t).map Prod.fst).toFinset =
      (t.map Prod.fst).toFinset ∧
    ((ps.foldl (fun f p => upsert f p.1 p.2) t).map Prod.fst).Nodup := by
  induction ps generalizing t with
  | nil => exact ⟨rfl, hnd⟩
  | cons p ps ih =>
      rw [List.foldl_cons]
      have hp : p.1 ∈ t.map Prod.fst := hsub p (List.mem_cons_self _ _)
      have hsub2 : ∀ q ∈ ps, q.1 ∈ (upsert t p.1 p.2).map Prod.fst :=
        fun q hq => mem_keys_upsert_of_mem t p.1 q.1 p.2 (hsub q (List.mem_cons_of_mem _ hq))
      obtain ⟨hfin, hnd2⟩ := ih (upsert t p.1 p.2) hsub2 (nodup_keys_upsert t p.1 p.2 hnd)
      refine ⟨?_, hnd2⟩
      rw [hfin, toFinset_keys_upsert]
      exact Finset.insert_eq_self.mpr (List.mem_toFinset.mpr hp)

/-! ## C7 -/

/-- The operations of C7's programs: set / delete / get / sync with text
keys, all on the one open handle. -/
inductive CupOp where
  | set (k : String) (v : PyValue) : CupOp
  | del (k : String) : CupOp
  | get (k : String) : CupOp
  | doSync : CupOp

/-- Run one operation against (handle, world). A raising operation leaves
the state unchanged: every raise in the source happens before that
operation's mutations (set encodes before writing, get raises before the
cache update, sync rolls back its transaction). -/
def stepOp (s : Cupboard × World) (op : CupOp) : Cupboard × World :=
  match op with
  | .set k v => match setitem s.1 s.2 (.str k) v with
                | .ok r => r
                | .error _ => s
  | .del k => match delitem s.1 s.2 (.str k) with
              | .ok r => r
              | .error _ => s
  | .get k => match getitem s.1 s.2 (.str k) with
              | .ok r => (r.1, s.2)
              | .error _ => s
  | .doSync => match sync s.1 s.2 with
               | .ok w' => (s.1, w')
               | .error _ => s

/-- Run a program from a freshly opened store over an empty backing file. -/
def runOps (wb : Bool) (ops : List CupOp) : Cupboard × World :=
  ops.foldl stepOp (openCupboard wb, freshWorld)

/-- Spec-side accounting for one operation: a successful set adds its key to
the set of live keys, a delete removes it, get and sync change nothing. -/
def keysStep (ks : Finset String) (op : CupOp) : Finset String :=
  match op with
  | .set k v => if encodable v then insert k ks else ks
  | .del k => ks.erase k
  | _ => ks

/-- The distinct keys ever successfully set, minus those subsequently
deleted. -/
def keysAfter (ops : List CupOp) : Finset String :=
  ops.foldl keysStep ∅

/-- Invariant carried along a run: the handle stays open, every cached key
is backed by a durable row, the file's keys are duplicate-free, and the
file's key set tracks the spec-side accounting. -/
theorem runOps_invariant (ops : List CupOp) (wb : Bool) (cch : Cache) (w : World)
    (ks : Finset String)
    (hsub : ∀ p ∈ cch, p.1 ∈ w.file.map Prod.fst)
    (hnd : (w.file.map Prod.fst).Nodup)
    (hks : (w.file.map Prod.fst).toFinset = ks) :
    (ops.foldl stepOp (⟨wb, some cch, true⟩, w)).1._conn = true ∧
    (∃ cch2, (ops.foldl stepOp (⟨wb, some cch, true⟩, w)).1._cache = some cch2 ∧
       ∀ p ∈ cch2, p.1 ∈ (ops.foldl stepOp (⟨wb, some cch, true⟩, w)).2.file.map Prod.fst) ∧
    ((ops.foldl stepOp (⟨wb, some cch, true⟩, w)).2.file.map Prod.fst).Nodup ∧
    ((ops.foldl stepOp (⟨wb, some cch, true⟩, w)).2.file.map Prod.fst).toFinset =
      ops.foldl keysStep ks := by
  induction ops generalizing cch w ks with
  | nil => exact ⟨rfl, ⟨cch, rfl, hsub⟩, hnd, hks⟩
  | cons op ops ih =>
      rw [List.foldl_cons, List.foldl_cons]
      cases op with
      | set k v =>
          cases hv : encodable v with
          | false =>
              have hstep : stepOp (⟨wb, some cch, true⟩, w) (.set k v) =
                  (⟨wb, some cch, true⟩, w) := by
                simp [stepOp, setitem, json_dumps, hv, exthrow]
              have hkeys : keysStep ks (.set k v) = ks := by
                simp [keysStep, hv]
              rw [hstep, hkeys]
              exact ih cch w ks hsub hnd hks
          | true =>
              have hstep : stepOp (⟨wb, some cch, true⟩, w) (.set k v) =
                  (⟨wb, some (if wb && isMutable v then upsert cch k v else popKey k cch), true⟩,
                   { w with file := upsert w.file k v }) := by
                simp [stepOp, setitem, json_dumps, hv, update_cache, Cupboard.cacheOf,
                  Cupboard.connOf, exbind_ok, exmap_ok, expure, upsert]
              have hkeys : keysStep ks (.set k v) = insert k ks := by
                simp [keysStep, hv]
              rw [hstep, hkeys]
              refine ih _ _ _ ?_ (nodup_keys_upsert w.file k v hnd) ?_
              · intro p hp
                by_cases hwm : (wb && isMutable v) = true
                · rw [if_pos hwm] at hp
                  rcases List.mem_append.mp hp with hmem | hsing
                  · have hne := popKey_mem_ne k cch p hmem
                    have hold := hsub p (popKey_mem k cch p hmem)
                    exact mem_keys_upsert_of_mem w.file k p.1 v hold
                  · have : p = (k, v) := by simpa using hsing
                    subst this
                    have : (k : String) ∈ ((upsert w.file k v).map Prod.fst).toFinset := by
                      rw [toFinset_keys_upsert]
                      exact Finset.mem_insert_self k _
                    exact List.mem_toFinset.mp this
                · rw [if_neg hwm] at hp
                  exact mem_keys_upsert_of_mem w.file k p.1 v
                    (hsub p (popKey_mem k cch p hp))
              · rw [toFinset_keys_upsert, hks]
      | del k =>
          have hstep : stepOp (⟨wb, some cch, true⟩, w) (.del k) =
              (⟨wb, some (popKey k cch), true⟩,
               { w with file := popKey k w.file }) := by
            simp [stepOp, delitem, keyToSql, cachePop, applyDelete, sqlDelete,
              Cupboard.cacheOf, Cupboard.connOf, exbind_ok, exmap_ok, expure]
          rw [hstep]
          refine ih _ _ _ ?_ (nodup_keys_popKey w.file k hnd) ?_
          · intro p hp
            have hne := popKey_mem_ne k cch p hp
            have hold := hsub p (popKey_mem k cch p hp)
            have : p.1 ∈ ((popKey k w.file).map Prod.fst).toFinset := by
              rw [toFinset_keys_popKey]
              exact Finset.mem_erase.mpr ⟨hne, List.mem_toFinset.mpr hold⟩
            exact List.mem_toFinset.mp this
          · rw [toFinset_keys_popKey, hks]
            rfl
      | get k =>
          cases hl : lookupKey k cch with
          | some v =>
              have hstep : stepOp (⟨wb, some cch, true⟩, w) (.get k) =
                  (⟨wb, some cch, true⟩, w) := by
                simp [stepOp, getitem, Cupboard.cacheOf, hl, exbind_ok, expure]
              rw [hstep]
              exact ih cch w ks hsub hnd hks
          | none =>
              cases hf : lookupKey k w.file with
              | none =>
                  have hstep : stepOp (⟨wb, some cch, true⟩, w) (.get k) =
                      (⟨wb, some cch, true⟩, w) := by
                    simp [stepOp, getitem, Cupboard.cacheOf, Cupboard.connOf, hl, hf,
                      exbind_ok, exthrow]
                  rw [hstep]
                  exact ih cch w ks hsub hnd hks
              | some v =>
                  have hstep : stepOp (⟨wb, some cch, true⟩, w) (.get k) =
                      (⟨wb, some (if wb && isMutable v then upsert cch k v else popKey k cch), true⟩, w) := by
                    simp [stepOp, getitem, Cupboard.cacheOf, Cupboard.connOf, hl, hf,
                      update_cache, exbind_ok, exmap_ok, expure, upsert]
                  rw [hstep]
                  refine ih _ _ _ ?_ hnd hks
                  intro p hp
                  by_cases hwm : (wb && isMutable v) = true
                  · rw [if_pos hwm] at hp
                    rcases List.mem_append.mp hp with hmem | hsing
                    · exact hsub p (popKey_mem k cch p hmem)
                    · have : p = (k, v) := by simpa using hsing
                      subst this
                      exact mem_keys_of_lookup k w.file v hf
                  · rw [if_neg hwm] at hp
                    exact hsub p (popKey_mem k cch p hp)
      | doSync =>
          cases hemp : cch.isEmpty with
          | true =>
              have hcch : cch = [] := by
                cases cch with
                | nil => rfl
                | cons p l => exact absurd hemp (by simp)
              subst hcch
              have hstep : stepOp (⟨wb, some [], true⟩, w) .doSync =
                  (⟨wb, some [], true⟩, w) := by
                simp [stepOp, sync, Cupboard.cacheOf, exbind_ok, expure]
              rw [hstep]
              exact ih [] w ks hsub hnd hks
          | false =>
              cases henc : encodableKVs cch with
              | false =>
                  have hstep : stepOp (⟨wb, some cch, true⟩, w) .doSync =
                      (⟨wb, some cch, true⟩, w) := by
                    simp [stepOp, sync, Cupboard.cacheOf, Cupboard.connOf, hemp, henc,
                      exbind_ok, exthrow]
                  rw [hstep]
                  exact ih cch w ks hsub hnd hks
              | true =>
                  have hstep : stepOp (⟨wb, some cch, true⟩, w) .doSync =
                      (⟨wb, some cch, true⟩,
                       { w with file := cch.foldl (fun f p => upsert f p.1 p.2) w.file }) := by
                    simp [stepOp, sync, Cupboard.cacheOf, Cupboard.connOf, hemp, henc,
                      exbind_ok, expure]
                  rw [hstep]
                  obtain ⟨hfin, hnd2⟩ := foldl_upsert_keys_subset cch w.file hsub hnd
                  refine ih _ _ _ ?_ hnd2 (by rw [hfin, hks]; rfl)
                  intro p hp
                  have hold := hsub p hp
                  have : p.1 ∈ ((cch.foldl (fun f p => upsert f p.1 p.2) w.file).map Prod.fst).toFinset := by
                    rw [hfin]
                    exact List.mem_toFinset.mpr hold
                  exact List.mem_toFinset.mp this

/-- C7: after any sequence of set/delete/get/sync operations on an open
store starting from an empty backing file, `size()` returns the number of
distinct keys ever (successfully) set minus those subsequently deleted, in
both writeback and non-writeback mode and independently of pending cache
entries. -/
theorem c7_size_counts (wb : Bool) (ops : List CupOp) :
    lenOf (runOps wb ops).1 (runOps wb ops).2 = .ok (keysAfter ops).card := by
  obtain ⟨hcc, hcache, hnd, hks⟩ := runOps_invariant ops wb [] freshWorld ∅
    (fun p hp => absurd hp (List.not_mem_nil p)) (by simp [freshWorld])
    (by simp [freshWorld])
  have hrun : runOps wb ops = ops.foldl stepOp (⟨wb, some [], true⟩, freshWorld) := rfl
  rw [hrun]
  have hlen : lenOf (ops.foldl stepOp (⟨wb, some [], true⟩, freshWorld)).1
      (ops.foldl stepOp (⟨wb, some [], true⟩, freshWorld)).2 =
      .ok (ops.foldl stepOp (⟨wb, some [], true⟩, freshWorld)).2.file.length := by
    simp [lenOf, Cupboard.connOf, hcc, exbind_ok, expure]
  rw [hlen]
  congr 1
  rw [keysAfter, ← hks, List.toFinset_card_of_nodup hnd, List.length_map]
